import Mathlib

/-!
Verification of the keyword matching and trend/prediction engine of the
monitor repository. The analyzer operates on character lists; Python
dictionaries are modelled as insertion-ordered association lists, Python
sets of keywords as duplicate-free lists in their (stable) iteration
order, and Python's stable `sorted` as a stable insertion sort. Floats
are idealized as rationals. Regex word characters (`\w`) are modelled as
ASCII alphanumerics plus underscore.
-/

namespace Monitor

abbrev Str := List Char

/-! ### Matching primitives (keyword_analyzer.analyze_text internals)

`re.findall(re.escape(k), text)` counts non-overlapping literal
occurrences by a left-to-right scan; the whole-word variant wraps the
escaped literal between two word-boundary assertions. -/

def isWordChar (c : Char) : Bool := c.isAlphanum || c == '_'

def isWordAt (s : Str) (i : Nat) : Bool :=
  match s.get? i with
  | some c => isWordChar c
  | none => false

def isAlnumAt (s : Str) (i : Nat) : Bool :=
  match s.get? i with
  | some c => c.isAlphanum
  | none => false

/-- A word boundary sits at position `p` when exactly one of the two
surrounding positions holds a word character (positions off either end
count as non-word). -/
def hasBoundary (s : Str) (p : Nat) : Bool :=
  (decide (0 < p) && isWordAt s (p - 1)) != isWordAt s p

/-- The literal `t` occurs in `s` starting at index `i`. -/
def matchesAt (t : Str) (s : Str) (i : Nat) : Bool :=
  match t with
  | [] => true
  | c :: t' =>
    match s.get? i with
    | some c' => c == c' && matchesAt t' s (i + 1)
    | none => false

def substrAcceptAt (t s : Str) (i : Nat) : Bool := matchesAt t s i

def wwAcceptAt (t s : Str) (i : Nat) : Bool :=
  matchesAt t s i && hasBoundary s i && hasBoundary s (i + t.length)

/-- Left-to-right non-overlapping scan: on a hit at `i` the scan resumes
at `i + step` (`step` is the match length, at least 1), on a miss at
`i + 1`; positions `0..slen` are tried. The fuel argument bounds the
number of steps; `slen + 1` steps always suffice. -/
def countFrom (accept : Nat → Bool) (step slen : Nat) : Nat → Nat → Nat
  | 0, _ => 0
  | fuel + 1, i =>
    if i ≤ slen then
      if accept i then 1 + countFrom accept step slen fuel (i + step)
      else countFrom accept step slen fuel (i + 1)
    else 0

def countSubstr (t s : Str) : Nat :=
  countFrom (substrAcceptAt t s) (max t.length 1) s.length (s.length + 1) 0

def countWholeWord (t s : Str) : Nat :=
  countFrom (wwAcceptAt t s) (max t.length 1) s.length (s.length + 1) 0

/-! ### Analyzer configuration and state -/

structure Config where
  case_sensitive : Bool
  match_whole_word : Bool
  min_keyword_length : Nat
  max_results : Nat
deriving DecidableEq

def defaultConfig : Config := ⟨false, false, 3, 1000⟩

/-! ### TermSet maintenance (load_keywords / add_keyword) -/

def isSpaceChar (c : Char) : Bool := c.isWhitespace

/-- Python `str.strip()`. -/
def strip (s : Str) : Str :=
  ((s.dropWhile isSpaceChar).reverse.dropWhile isSpaceChar).reverse

def normalizeStored (cfg : Config) (k : Str) : Str :=
  if cfg.case_sensitive then k else k.map Char.toLower

/-- Adding to a Python `set`: a no-op on a present element, appended to
the iteration order otherwise. -/
def setInsert (ks : List Str) (k : Str) : List Str :=
  if k ∈ ks then ks else ks ++ [k]

/-- One line of `load_keywords`: strip, length-check, then store. -/
def load_keywords_line (cfg : Config) (ks : List Str) (line : Str) : List Str :=
  let keyword := strip line
  if cfg.min_keyword_length ≤ keyword.length then
    setInsert ks (normalizeStored cfg keyword)
  else ks

def load_keywords (cfg : Config) (ks : List Str) (lines : List Str) : List Str :=
  lines.foldl (load_keywords_line cfg) ks

/-- `add_keyword` length-checks the raw argument (without stripping). -/
def add_keyword (cfg : Config) (ks : List Str) (keyword : Str) : List Str :=
  if cfg.min_keyword_length ≤ keyword.length then
    setInsert ks (normalizeStored cfg keyword)
  else ks

/-! ### analyze_text / analyze_document -/

/-- `text.lower()` unless case-sensitive. -/
def normalizeText (cfg : Config) (text : Str) : Str :=
  if cfg.case_sensitive then text else text.map Char.toLower

/-- Number of matches `re.findall` produces for one keyword. -/
def occCount (cfg : Config) (keyword t : Str) : Nat :=
  if cfg.match_whole_word then countWholeWord keyword t
  else countSubstr keyword t

def analyze_text (cfg : Config) (keywords : List Str) (text : Str) :
    List (Str × Nat) :=
  if text = [] then []
  else
    keywords.filterMap (fun keyword =>
      if 0 < occCount cfg keyword (normalizeText cfg text) then
        some (keyword, occCount cfg keyword (normalizeText cfg text))
      else none)

structure Document where
  title : Option Str
  content : Option Str
  description : Option Str
  text : Option Str
  summary : Option Str
  serialized : Str
deriving DecidableEq

def fieldText (f : Option Str) : Str :=
  match f with
  | some s => s ++ [' ']
  | none => []

/-- Concatenate the string-valued common fields (each followed by a
space); fall back to the full serialization when none contributes. -/
def extract_text (d : Document) : Str :=
  let t := fieldText d.title ++ fieldText d.content ++ fieldText d.description
             ++ fieldText d.text ++ fieldText d.summary
  if t = [] then d.serialized else t

def analyze_document (cfg : Config) (keywords : List Str) (d : Document) :
    Bool × List (Str × Nat) :=
  let results := analyze_text cfg keywords (extract_text d)
  (!results.isEmpty, results)

/-! ### filter_documents -/

def filterDocsAux (cfg : Config) (keywords : List Str) (maxResults : Nat) :
    List Document → Nat → List Document
  | [], _ => []
  | d :: ds, n =>
    if (analyze_document cfg keywords d).1 then
      if maxResults ≤ n + 1 then [d]
      else d :: filterDocsAux cfg keywords maxResults ds (n + 1)
    else filterDocsAux cfg keywords maxResults ds n

def filter_documents (cfg : Config) (keywords : List Str)
    (documents : List Document) : List Document :=
  filterDocsAux cfg keywords cfg.max_results documents 0

/-! ### Association lists standing in for Python dicts -/

def lookupKey {β : Type} (k : Str) : List (Str × β) → Option β
  | [] => none
  | (k', v) :: rest => if k' = k then some v else lookupKey k rest

def keysOf {β : Type} (l : List (Str × β)) : List Str := l.map Prod.fst

def NodupKeys {β : Type} (l : List (Str × β)) : Prop := (keysOf l).Nodup

def countOf (k : Str) (l : List (Str × Nat)) : Nat := (lookupKey k l).getD 0

/-- `total[k] += c` on a dict that may not yet hold `k` (then `total[k] = c`),
keeping the insertion order. -/
def addCount (k : Str) (c : Nat) : List (Str × Nat) → List (Str × Nat)
  | [] => [(k, c)]
  | (k', c') :: rest =>
    if k' = k then (k', c' + c) :: rest else (k', c') :: addCount k c rest

/-- Sum of the values attached to key `k` (its dict value when the keys
are duplicate-free). -/
def sumVals (k : Str) : List (Str × Nat) → Nat
  | [] => 0
  | (k', c) :: rest => (if k' = k then c else 0) + sumVals k rest

/-! ### Stable descending sort, the model of Python's
`sorted(..., key=..., reverse=True)` -/

def insertDescBy {α β : Type} [LinearOrder β] (v : α → β) (x : α) :
    List α → List α
  | [] => [x]
  | y :: l => if v y ≤ v x then x :: y :: l else y :: insertDescBy v x l

def sortDescBy {α β : Type} [LinearOrder β] (v : α → β) : List α → List α
  | [] => []
  | x :: l => insertDescBy v x (sortDescBy v l)

/-! ### get_document_keyword_stats -/

/-- The inner loop over one document's `doc_stats.items()`. -/
def mergeDoc (total docStats : List (Str × Nat)) : List (Str × Nat) :=
  docStats.foldl (fun t p => addCount p.1 p.2 t) total

def totalStats (cfg : Config) (keywords : List Str)
    (documents : List Document) : List (Str × Nat) :=
  documents.foldl (fun total d => mergeDoc total (analyze_document cfg keywords d).2) []

def get_document_keyword_stats (cfg : Config) (keywords : List Str)
    (documents : List Document) : List (Str × Nat) :=
  if documents = [] then []
  else sortDescBy (fun p => p.2) (totalStats cfg keywords documents)

/-- Per-term total across the per-record match results, the reference
value of claim C7. -/
def totalOcc (cfg : Config) (keywords : List Str) (documents : List Document)
    (k : Str) : Nat :=
  (documents.map (fun d => countOf k (analyze_document cfg keywords d).2)).sum

/-- The tie-break asserted by claim C2: among entries with equal counts,
earlier entries carry keys that come no later in the term collection. -/
def tieBreakByCollection (ks : List Str) (l : List (Str × Nat)) : Prop :=
  ∀ i j : Fin l.length, i < j → (l.get i).2 = (l.get j).2 →
    ks.indexOf (l.get i).1 ≤ ks.indexOf (l.get j).1

/-! ### Reporting side: _analyze_keyword_stats over serialized records

`_analyze_keyword_stats` serializes each record to text
(`json.dumps(doc).lower()`), so a record enters this function only
through that text; records are therefore modelled by their serialized
text. -/

def analyzeKeywordStatsR (keywords : List Str) (docs : List Str) :
    List (Str × Nat) :=
  if docs = [] then []
  else
    sortDescBy (fun p => p.2) (docs.foldl (fun counts docText =>
      keywords.foldl (fun cnts k =>
        let c := countSubstr (k.map Char.toLower) (docText.map Char.toLower)
        if 0 < c then addCount k c cnts else cnts) counts) [])

/-! ### _analyze_trends -/

/-- Dates are days (as integers); `dateRangeAux n s` lists the `n` days
starting at `s`, mirroring the `while current_date <= end_date` loop of
`_collect_weekly_documents`. -/
def dateRangeAux : Nat → Int → List Int
  | 0, _ => []
  | n + 1, s => s :: dateRangeAux n (s + 1)

def dateRange (startDate endDate : Int) : List Int :=
  dateRangeAux (endDate + 1 - startDate).toNat startDate

def collect_weekly_documents (fetchDay : Int → List Str)
    (startDate endDate : Int) : List Str :=
  (dateRange startDate endDate).foldl (fun docs d => docs ++ fetchDay d) []

def trendStartDate (endDate : Int) (days : Nat) : Int := endDate - days

def trendMidDate (endDate : Int) (days : Nat) : Int :=
  trendStartDate endDate days + (days / 2 : Nat)

/-- The per-keyword percentage change of `_analyze_trends`. -/
def trendValue (first second : List (Str × Nat)) (k : Str) : ℚ :=
  if 0 < countOf k first then
    (((countOf k second : ℚ) - (countOf k first : ℚ)) / (countOf k first : ℚ)) * 100
  else if 0 < countOf k second then 100 else 0

/-- The percentage-change computation of `_analyze_trends` over the two
half-window aggregates. The union `set(first) | set(second)` is iterated
in first-keys-then-new-second-keys order (one stable order of the set). -/
def computeTrends (first second : List (Str × Nat)) : List (Str × ℚ) :=
  sortDescBy (fun p => |p.2|)
    ((keysOf first ++
        (keysOf second).filter (fun k => decide (k ∉ keysOf first))).map
      (fun k => (k, trendValue first second k)))

def analyze_trends (fetchDay : Int → List Str) (keywords : List Str)
    (days : Nat) (endDate : Int) : List (Str × ℚ) :=
  let firstHalfDocs := collect_weekly_documents fetchDay
    (trendStartDate endDate days) (trendMidDate endDate days)
  let secondHalfDocs := collect_weekly_documents fetchDay
    (trendMidDate endDate days + 1) endDate
  computeTrends (analyzeKeywordStatsR keywords firstHalfDocs)
    (analyzeKeywordStatsR keywords secondHalfDocs)

/-! ### _generate_predictions -/

/-- One keyword's projection: daily average times trend factor times
horizon, floored at zero. -/
def predictedValue (historicalStats : List (Str × Nat)) (days horizon : Nat)
    (k : Str) (trend : ℚ) : ℚ :=
  max 0 (((countOf k historicalStats : ℚ) / (days : ℚ))
    * (1 + trend / 100) * (horizon : ℚ))

def generate_predictions (trendData : List (Str × ℚ))
    (historicalStats : List (Str × Nat)) (days horizon : Nat) :
    List (Str × ℚ) :=
  if trendData = [] then []
  else
    sortDescBy (fun p => p.2) (trendData.filterMap (fun p =>
      if p.1 ∈ keysOf historicalStats then
        some (p.1, predictedValue historicalStats days horizon p.1 p.2)
      else none))

/-! ### State-passing forms of the analysis methods (claim C10)

The analyzer instance state is its configuration plus keyword set; each
method below returns its result together with the post-state, translated
statement-by-statement from method bodies that only read `self`. -/

structure AnalyzerState where
  config : Config
  keywords : List Str

def analyze_text_m (st : AnalyzerState) (text : Str) :
    List (Str × Nat) × AnalyzerState :=
  (analyze_text st.config st.keywords text, st)

def analyze_document_m (st : AnalyzerState) (d : Document) :
    (Bool × List (Str × Nat)) × AnalyzerState :=
  (analyze_document st.config st.keywords d, st)

def filter_documents_m (st : AnalyzerState) (documents : List Document) :
    List Document × AnalyzerState :=
  (filter_documents st.config st.keywords documents, st)

def get_document_keyword_stats_m (st : AnalyzerState)
    (documents : List Document) : List (Str × Nat) × AnalyzerState :=
  (get_document_keyword_stats st.config st.keywords documents, st)

instance (ks : List Str) (l : List (Str × Nat)) :
    Decidable (tieBreakByCollection ks l) := by
  unfold tieBreakByCollection; infer_instance

instance {β : Type} [DecidableEq β] (l : List (Str × β)) :
    Decidable (NodupKeys l) := by
  unfold NodupKeys; infer_instance

/-! ### Concrete data for the concrete instances below -/

def strFintech : Str := "fintech".data

def strFintechnology : Str := "fintechnology".data

def strXFintechY : Str := "x fintech y".data

def strDashTech : Str := "-tech".data

def strATechB : Str := "a-tech b".data

def strAAA : Str := "aaa".data

def strCCC : Str := "ccc".data

def strPadAA : Str := "  aa".data

def docA : Document := ⟨some strAAA, none, none, none, none, []⟩

def docC : Document := ⟨some strCCC, none, none, none, none, []⟩

def ksAC : List Str := [strAAA, strCCC]

def cfgWholeWord : Config := ⟨false, true, 3, 1000⟩

def cfgMaxZero : Config := ⟨false, false, 3, 0⟩

/-! ## Lemmas -/

/-! ### Literal matching -/

theorem get?_eq_of_matchesAt :
    ∀ (t : Str) (s : Str) (i : Nat), matchesAt t s i = true →
      ∀ j, j < t.length → s.get? (i + j) = t.get? j := by
  intro t
  induction t with
  | nil => intro s i _ j hj; simp at hj
  | cons c t' ih =>
    intro s i h j hj
    unfold matchesAt at h
    cases hs : s.get? i with
    | none => rw [hs] at h; simp at h
    | some c' =>
      rw [hs] at h
      simp only [Bool.and_eq_true, beq_iff_eq] at h
      obtain ⟨rfl, h2⟩ := h
      cases j with
      | zero => simpa using hs
      | succ j =>
        have hrec := ih s (i + 1) h2 j (by simpa using hj)
        have harith : i + (j + 1) = i + 1 + j := by omega
        rw [harith, List.get?_cons_succ]
        exact hrec

theorem isWordAt_eq_of_matchesAt {t s : Str} {i : Nat}
    (h : matchesAt t s i = true) {j : Nat} (hj : j < t.length) :
    isWordAt s (i + j) = isWordAt t j := by
  unfold isWordAt
  rw [get?_eq_of_matchesAt t s i h j hj]

theorem isAlnumAt_eq_false_of_isWordAt {s : Str} {j : Nat}
    (h : isWordAt s j = false) : isAlnumAt s j = false := by
  unfold isWordAt at h
  unfold isAlnumAt
  cases hs : s.get? j with
  | none => rfl
  | some c =>
    rw [hs] at h
    unfold isWordChar at h
    simp only [Bool.or_eq_false_iff] at h
    exact h.1

/-- Whole-word acceptance of a term whose first and last characters are
word characters forces both neighbouring positions to be non-word, hence
non-alphanumeric. -/
theorem wwAccept_no_alnum_adjacent (t s : Str) (i : Nat)
    (h0 : isWordAt t 0 = true) (h1 : isWordAt t (t.length - 1) = true)
    (h : wwAcceptAt t s i = true) :
    (1 ≤ i → isAlnumAt s (i - 1) = false) ∧
      isAlnumAt s (i + t.length) = false := by
  have hlen : 1 ≤ t.length := by
    cases t with
    | nil => simp [isWordAt] at h0
    | cons c t' => simp
  unfold wwAcceptAt at h
  simp only [Bool.and_eq_true] at h
  obtain ⟨⟨hm, hb1⟩, hb2⟩ := h
  have hsw : isWordAt s i = true := by
    have := isWordAt_eq_of_matchesAt hm (j := 0) (by omega)
    rw [Nat.add_zero] at this
    rw [this, h0]
  have hswLast : isWordAt s (i + t.length - 1) = true := by
    have := isWordAt_eq_of_matchesAt hm (j := t.length - 1) (by omega)
    have harith : i + (t.length - 1) = i + t.length - 1 := by omega
    rw [harith] at this
    rw [this, h1]
  constructor
  · intro hi
    unfold hasBoundary at hb1
    rw [hsw] at hb1
    have hdec : decide (0 < i) = true := by simpa using hi
    rw [hdec] at hb1
    simp only [Bool.true_and, bne_iff_ne, ne_eq] at hb1
    have : isWordAt s (i - 1) = false := by
      cases hw : isWordAt s (i - 1) with
      | false => rfl
      | true => exact absurd hw hb1
    exact isAlnumAt_eq_false_of_isWordAt this
  · unfold hasBoundary at hb2
    have hdec : decide (0 < i + t.length) = true := by
      simp only [decide_eq_true_eq]; omega
    rw [hdec, hswLast] at hb2
    simp only [Bool.true_and, bne_iff_ne, ne_eq] at hb2
    have : isWordAt s (i + t.length) = false := by
      cases hw : isWordAt s (i + t.length) with
      | false => rfl
      | true => exact absurd hw.symm hb2
    exact isAlnumAt_eq_false_of_isWordAt this

/-! ### Stable descending sort -/

theorem mem_insertDescBy {α β : Type} [LinearOrder β] (v : α → β) (x a : α) :
    ∀ l : List α, (a ∈ insertDescBy v x l ↔ a = x ∨ a ∈ l) := by
  intro l
  induction l with
  | nil => simp [insertDescBy]
  | cons y l ih =>
    by_cases h : v y ≤ v x
    · simp [insertDescBy, h]
    · simp only [insertDescBy, if_neg h, List.mem_cons, ih]
      tauto

theorem perm_insertDescBy {α β : Type} [LinearOrder β] (v : α → β) (x : α) :
    ∀ l : List α, List.Perm (insertDescBy v x l) (x :: l) := by
  intro l
  induction l with
  | nil => simp [insertDescBy]
  | cons y l ih =>
    by_cases h : v y ≤ v x
    · simp [insertDescBy, h]
    · simp only [insertDescBy, if_neg h]
      exact (ih.cons y).trans (List.Perm.swap x y l)

theorem perm_sortDescBy {α β : Type} [LinearOrder β] (v : α → β) :
    ∀ l : List α, List.Perm (sortDescBy v l) l := by
  intro l
  induction l with
  | nil => simp [sortDescBy]
  | cons x l ih =>
    exact (perm_insertDescBy v x (sortDescBy v l)).trans (ih.cons x)

theorem mem_sortDescBy {α β : Type} [LinearOrder β] (v : α → β) (a : α)
    (l : List α) : a ∈ sortDescBy v l ↔ a ∈ l :=
  (perm_sortDescBy v l).mem_iff

theorem pairwise_insertDescBy {α β : Type} [LinearOrder β] (v : α → β) (x : α) :
    ∀ l : List α, List.Pairwise (fun a b => v b ≤ v a) l →
      List.Pairwise (fun a b => v b ≤ v a) (insertDescBy v x l) := by
  intro l
  induction l with
  | nil => intro _; simp [insertDescBy]
  | cons y l ih =>
    intro h
    rw [List.pairwise_cons] at h
    by_cases hyx : v y ≤ v x
    · simp only [insertDescBy, if_pos hyx]
      refine List.pairwise_cons.mpr ⟨?_, List.pairwise_cons.mpr h⟩
      intro z hz
      rcases List.mem_cons.mp hz with rfl | hz
      · exact hyx
      · exact le_trans (h.1 z hz) hyx
    · simp only [insertDescBy, if_neg hyx]
      refine List.pairwise_cons.mpr ⟨?_, ih h.2⟩
      intro z hz
      rcases (mem_insertDescBy v x z l).mp hz with rfl | hz
      · exact le_of_lt (lt_of_not_le hyx)
      · exact h.1 z hz

theorem pairwise_sortDescBy {α β : Type} [LinearOrder β] (v : α → β) :
    ∀ l : List α, List.Pairwise (fun a b => v b ≤ v a) (sortDescBy v l) := by
  intro l
  induction l with
  | nil => simp [sortDescBy]
  | cons x l ih => exact pairwise_insertDescBy v x (sortDescBy v l) ih

theorem filter_insertDescBy {α β : Type} [LinearOrder β] (v : α → β) (x : α)
    (c : β) :
    ∀ l : List α, List.Pairwise (fun a b => v b ≤ v a) l →
      (insertDescBy v x l).filter (fun a => decide (v a = c)) =
        if v x = c then x :: l.filter (fun a => decide (v a = c))
        else l.filter (fun a => decide (v a = c)) := by
  intro l
  induction l with
  | nil =>
    intro _
    by_cases h : v x = c <;> simp [insertDescBy, List.filter, h]
  | cons y l ih =>
    intro hp
    rw [List.pairwise_cons] at hp
    by_cases hyx : v y ≤ v x
    · simp only [insertDescBy, if_pos hyx]
      by_cases hx : v x = c <;> simp [List.filter_cons, hx]
    · have hxy : v x < v y := lt_of_not_le hyx
      simp only [insertDescBy, if_neg hyx, List.filter_cons]
      rw [ih hp.2]
      by_cases hx : v x = c
      · have hy : ¬ v y = c := by rw [← hx]; exact ne_of_gt hxy
        simp [hx, hy]
      · simp [hx]

theorem filter_sortDescBy {α β : Type} [LinearOrder β] (v : α → β) (c : β) :
    ∀ l : List α,
      (sortDescBy v l).filter (fun a => decide (v a = c)) =
        l.filter (fun a => decide (v a = c)) := by
  intro l
  induction l with
  | nil => simp [sortDescBy]
  | cons x l ih =>
    simp only [sortDescBy]
    rw [filter_insertDescBy v x c (sortDescBy v l) (pairwise_sortDescBy v l), ih]
    by_cases hx : v x = c <;> simp [List.filter_cons, hx]

/-! ### Association list lemmas -/

theorem lookupKey_mem {β : Type} {k : Str} {v : β} :
    ∀ {l : List (Str × β)}, lookupKey k l = some v → (k, v) ∈ l := by
  intro l
  induction l with
  | nil => intro h; simp [lookupKey] at h
  | cons p l ih =>
    intro h
    obtain ⟨k', v'⟩ := p
    by_cases hk : k' = k
    · subst hk
      simp [lookupKey] at h
      subst h
      exact List.mem_cons_self _ _
    · simp only [lookupKey, if_neg hk] at h
      exact List.mem_cons_of_mem _ (ih h)

theorem keysOf_nil {β : Type} : keysOf ([] : List (Str × β)) = [] := rfl

theorem keysOf_cons {β : Type} (p : Str × β) (l : List (Str × β)) :
    keysOf (p :: l) = p.1 :: keysOf l := rfl

theorem mem_keysOf {β : Type} {k : Str} {l : List (Str × β)} :
    k ∈ keysOf l ↔ ∃ v, (k, v) ∈ l := by
  unfold keysOf
  constructor
  · intro h
    obtain ⟨p, hp, hk⟩ := List.mem_map.mp h
    exact ⟨p.2, by simpa [← hk] using hp⟩
  · rintro ⟨v, hv⟩
    exact List.mem_map.mpr ⟨(k, v), hv, rfl⟩

theorem isSome_lookupKey {β : Type} (k : Str) :
    ∀ l : List (Str × β), (lookupKey k l).isSome = true ↔ k ∈ keysOf l := by
  intro l
  induction l with
  | nil => simp [lookupKey, keysOf_nil]
  | cons p l ih =>
    obtain ⟨k', v'⟩ := p
    by_cases hk : k' = k
    · subst hk; simp [lookupKey, keysOf_cons]
    · simp only [lookupKey, if_neg hk, keysOf_cons, List.mem_cons, ih]
      constructor
      · intro h; exact Or.inr h
      · rintro (rfl | h)
        · exact absurd rfl hk
        · exact h

theorem lookupKey_of_mem_nodup {β : Type} {k : Str} {v : β} :
    ∀ {l : List (Str × β)}, NodupKeys l → (k, v) ∈ l →
      lookupKey k l = some v := by
  intro l
  induction l with
  | nil => intro _ h; simp at h
  | cons p l ih =>
    intro hn h
    obtain ⟨k', v'⟩ := p
    have hn' : k' ∉ keysOf l ∧ NodupKeys l := by
      simpa [NodupKeys, keysOf_cons] using hn
    rcases List.mem_cons.mp h with heq | h
    · have h1 : k' = k := (Prod.ext_iff.mp heq.symm).1
      have h2 : v' = v := (Prod.ext_iff.mp heq.symm).2
      subst h1; subst h2
      simp [lookupKey]
    · by_cases hk : k' = k
      · subst hk
        exact absurd (mem_keysOf.mpr ⟨v, h⟩) hn'.1
      · simp only [lookupKey, if_neg hk]
        exact ih hn'.2 h

theorem mem_iff_lookupKey {β : Type} {k : Str} {v : β} {l : List (Str × β)}
    (hn : NodupKeys l) : (k, v) ∈ l ↔ lookupKey k l = some v :=
  ⟨lookupKey_of_mem_nodup hn, lookupKey_mem⟩

/-! ### addCount / sumVals / mergeDoc -/

theorem lookupKey_addCount_self (k : Str) (c : Nat) :
    ∀ l : List (Str × Nat),
      lookupKey k (addCount k c l) = some ((lookupKey k l).getD 0 + c) := by
  intro l
  induction l with
  | nil => simp [addCount, lookupKey]
  | cons p l ih =>
    obtain ⟨k', c'⟩ := p
    by_cases hk : k' = k
    · subst hk; simp [addCount, lookupKey]
    · simp [addCount, if_neg hk, lookupKey, ih]

theorem lookupKey_addCount_ne {j k : Str} (hjk : k ≠ j) (c : Nat) :
    ∀ l : List (Str × Nat),
      lookupKey j (addCount k c l) = lookupKey j l := by
  intro l
  induction l with
  | nil => simp [addCount, lookupKey, hjk]
  | cons p l ih =>
    obtain ⟨k', c'⟩ := p
    by_cases hk : k' = k
    · subst hk; simp [addCount, lookupKey, hjk, ih]
    · simp [addCount, if_neg hk, lookupKey, ih]

theorem countOf_addCount_self (k : Str) (c : Nat) (l : List (Str × Nat)) :
    countOf k (addCount k c l) = countOf k l + c := by
  unfold countOf
  rw [lookupKey_addCount_self]
  rfl

theorem countOf_addCount_ne {j k : Str} (hjk : k ≠ j) (c : Nat)
    (l : List (Str × Nat)) : countOf j (addCount k c l) = countOf j l := by
  unfold countOf
  rw [lookupKey_addCount_ne hjk]

theorem keysOf_addCount (k : Str) (c : Nat) :
    ∀ l : List (Str × Nat),
      keysOf (addCount k c l) = if k ∈ keysOf l then keysOf l
        else keysOf l ++ [k] := by
  intro l
  induction l with
  | nil => simp [addCount, keysOf]
  | cons p l ih =>
    obtain ⟨k', c'⟩ := p
    by_cases hk : k' = k
    · subst hk; simp [addCount, keysOf]
    · simp only [addCount, if_neg hk, keysOf, List.map_cons]
      by_cases hkl : k ∈ keysOf l
      · simp [keysOf] at hkl ih ⊢
        simp [hkl] at ih
        simp [hkl, ih, Ne.symm hk]
      · simp [keysOf] at hkl ih ⊢
        simp [hkl] at ih
        simp [hkl, ih, Ne.symm hk]

theorem mem_keysOf_addCount {j k : Str} {c : Nat} {l : List (Str × Nat)} :
    j ∈ keysOf (addCount k c l) ↔ j ∈ keysOf l ∨ j = k := by
  rw [keysOf_addCount]
  by_cases hkl : k ∈ keysOf l
  · simp only [if_pos hkl]
    constructor
    · exact Or.inl
    · rintro (h | rfl)
      · exact h
      · exact hkl
  · simp [if_neg hkl]

theorem nodupKeys_addCount {k : Str} {c : Nat} {l : List (Str × Nat)}
    (h : NodupKeys l) : NodupKeys (addCount k c l) := by
  unfold NodupKeys at h ⊢
  rw [keysOf_addCount]
  by_cases hkl : k ∈ keysOf l
  · simpa [hkl]
  · simpa [hkl, List.nodup_append] using h

theorem countOf_mergeDoc (k : Str) :
    ∀ (docStats total : List (Str × Nat)),
      countOf k (mergeDoc total docStats) = countOf k total + sumVals k docStats := by
  intro docStats
  induction docStats with
  | nil => intro total; simp [mergeDoc, sumVals]
  | cons p ds ih =>
    intro total
    obtain ⟨k', c⟩ := p
    have : mergeDoc total ((k', c) :: ds) = mergeDoc (addCount k' c total) ds := rfl
    rw [this, ih]
    by_cases hk : k' = k
    · subst hk
      rw [countOf_addCount_self]
      simp [sumVals]
      omega
    · rw [countOf_addCount_ne hk]
      simp [sumVals, hk]

theorem mem_keysOf_mergeDoc {j : Str} :
    ∀ (docStats total : List (Str × Nat)),
      (j ∈ keysOf (mergeDoc total docStats) ↔
        j ∈ keysOf total ∨ j ∈ keysOf docStats) := by
  intro docStats
  induction docStats with
  | nil => intro total; simp [mergeDoc, keysOf]
  | cons p ds ih =>
    intro total
    obtain ⟨k', c⟩ := p
    have hstep : mergeDoc total ((k', c) :: ds) = mergeDoc (addCount k' c total) ds := rfl
    rw [hstep, ih]
    rw [mem_keysOf_addCount]
    simp [keysOf]
    tauto

theorem nodupKeys_mergeDoc :
    ∀ (docStats total : List (Str × Nat)), NodupKeys total →
      NodupKeys (mergeDoc total docStats) := by
  intro docStats
  induction docStats with
  | nil => intro total h; exact h
  | cons p ds ih =>
    intro total h
    obtain ⟨k', c⟩ := p
    exact ih (addCount k' c total) (nodupKeys_addCount h)

theorem sumVals_eq_zero_of_not_mem {k : Str} :
    ∀ {l : List (Str × Nat)}, k ∉ keysOf l → sumVals k l = 0 := by
  intro l
  induction l with
  | nil => intro _; rfl
  | cons p l ih =>
    intro h
    obtain ⟨k', c⟩ := p
    have h' : k' ≠ k ∧ k ∉ keysOf l := by
      simp only [keysOf, List.map_cons, List.mem_cons] at h
      push_neg at h
      exact ⟨fun hk => h.1 hk.symm, by simpa [keysOf] using h.2⟩
    simp [sumVals, h'.1, ih h'.2]

theorem sumVals_eq_countOf_of_nodup {k : Str} :
    ∀ {l : List (Str × Nat)}, NodupKeys l → sumVals k l = countOf k l := by
  intro l
  induction l with
  | nil => intro _; rfl
  | cons p l ih =>
    intro hn
    obtain ⟨k', c⟩ := p
    have hn' : k' ∉ keysOf l ∧ NodupKeys l := by
      simpa [NodupKeys, keysOf] using hn
    by_cases hk : k' = k
    · subst hk
      simp [sumVals, countOf, lookupKey, sumVals_eq_zero_of_not_mem hn'.1]
    · simp [sumVals, hk, countOf, lookupKey, ih hn'.2]

/-! ### analyze_text characterization -/

theorem mem_analyze_text {cfg : Config} {keywords : List Str} {text : Str}
    {k : Str} {v : Nat} :
    (k, v) ∈ analyze_text cfg keywords text ↔
      text ≠ [] ∧ k ∈ keywords ∧
        0 < occCount cfg k (normalizeText cfg text) ∧
        v = occCount cfg k (normalizeText cfg text) := by
  unfold analyze_text
  by_cases ht : text = []
  · simp [ht]
  · rw [if_neg ht, List.mem_filterMap]
    constructor
    · rintro ⟨kw, hkw, hsome⟩
      by_cases hn : 0 < occCount cfg kw (normalizeText cfg text)
      · rw [if_pos hn] at hsome
        have hpair := Option.some.inj hsome
        have h1 : kw = k := (Prod.ext_iff.mp hpair).1
        subst h1
        exact ⟨ht, hkw, hn, ((Prod.ext_iff.mp hpair).2).symm⟩
      · rw [if_neg hn] at hsome
        simp at hsome
    · rintro ⟨-, hk, hn, rfl⟩
      exact ⟨k, hk, by rw [if_pos hn]⟩

theorem keysOf_filterMap_keyfixed (g : Str → Option (Str × Nat))
    (hg : ∀ k p, g k = some p → p.1 = k) :
    ∀ ks : List Str, keysOf (ks.filterMap g) = ks.filter (fun k => (g k).isSome) := by
  intro ks
  induction ks with
  | nil => rfl
  | cons k ks ih =>
    rw [List.filterMap_cons, List.filter_cons]
    cases hgk : g k with
    | none => simpa [hgk] using ih
    | some p =>
      have : p.1 = k := hg k p hgk
      simp only [hgk, Option.isSome_some, if_pos rfl, keysOf_cons, this, ih]
      rfl

theorem nodupKeys_analyze_text {cfg : Config} {keywords : List Str}
    {text : Str} (h : keywords.Nodup) :
    NodupKeys (analyze_text cfg keywords text) := by
  unfold NodupKeys analyze_text
  by_cases ht : text = []
  · simp [ht, keysOf_nil]
  · rw [if_neg ht]
    rw [keysOf_filterMap_keyfixed]
    · exact h.filter _
    · intro k p hp
      by_cases hn : 0 < occCount cfg k (normalizeText cfg text)
      · rw [if_pos hn] at hp
        exact ((Prod.ext_iff.mp (Option.some.injEq .. ▸ hp)).1).symm
      · rw [if_neg hn] at hp
        exact absurd hp (by simp)

theorem analyze_document_snd (cfg : Config) (keywords : List Str)
    (d : Document) :
    (analyze_document cfg keywords d).2 =
      analyze_text cfg keywords (extract_text d) := rfl

theorem countOf_pos_iff_mem_keysOf {k : Str} {l : List (Str × Nat)}
    (hval : ∀ p ∈ l, 1 ≤ p.2) : 0 < countOf k l ↔ k ∈ keysOf l := by
  unfold countOf
  cases hl : lookupKey k l with
  | none =>
    simp only [Option.getD_none]
    constructor
    · intro h; exact absurd h (by omega)
    · intro h
      have := (isSome_lookupKey k l).mpr h
      rw [hl] at this
      exact absurd this (by simp)
  | some w =>
    simp only [Option.getD_some]
    constructor
    · intro _
      exact (isSome_lookupKey k l).mp (by rw [hl]; rfl)
    · intro _
      exact hval (k, w) (lookupKey_mem hl)

theorem analyze_text_vals {cfg : Config} {keywords : List Str} {text : Str} :
    ∀ p ∈ analyze_text cfg keywords text, 1 ≤ p.2 := by
  rintro ⟨k, v⟩ hp
  have := mem_analyze_text.mp hp
  omega

theorem lookupKey_eq_some_iff {l : List (Str × Nat)} {k : Str} {v : Nat} :
    lookupKey k l = some v ↔ (k ∈ keysOf l ∧ v = countOf k l) := by
  cases hl : lookupKey k l with
  | none =>
    simp only [reduceCtorEq, false_iff, not_and]
    intro hmem
    have := (isSome_lookupKey k l).mpr hmem
    rw [hl] at this
    exact absurd this (by simp)
  | some w =>
    have hmem : k ∈ keysOf l := (isSome_lookupKey k l).mp (by rw [hl]; rfl)
    have hcount : countOf k l = w := by unfold countOf; rw [hl]; rfl
    simp only [Option.some.injEq, hmem, true_and, hcount]
    exact ⟨fun h => h.symm, fun h => h.symm⟩

/-! ### totalStats characterization -/

theorem sum_map_pos_iff {γ : Type} {f : γ → Nat} :
    ∀ {xs : List γ}, 0 < (xs.map f).sum ↔ ∃ x ∈ xs, 0 < f x := by
  intro xs
  induction xs with
  | nil => simp
  | cons x xs ih =>
    simp only [List.map_cons, List.sum_cons, List.mem_cons]
    constructor
    · intro h
      by_cases hx : 0 < f x
      · exact ⟨x, Or.inl rfl, hx⟩
      · have : 0 < (xs.map f).sum := by omega
        obtain ⟨y, hy, hfy⟩ := ih.mp this
        exact ⟨y, Or.inr hy, hfy⟩
    · rintro ⟨y, (rfl | hy), hfy⟩
      · omega
      · have := ih.mpr ⟨y, hy, hfy⟩
        omega

theorem totalOcc_cons {cfg : Config} {keywords : List Str} {d : Document}
    {ds : List Document} {k : Str} :
    totalOcc cfg keywords (d :: ds) k =
      countOf k (analyze_document cfg keywords d).2 + totalOcc cfg keywords ds k := by
  unfold totalOcc
  rw [List.map_cons, List.sum_cons]

theorem countOf_statsFold {cfg : Config} {keywords : List Str}
    (hks : keywords.Nodup) (k : Str) :
    ∀ (docs : List Document) (total : List (Str × Nat)),
      countOf k (docs.foldl
          (fun t d => mergeDoc t (analyze_document cfg keywords d).2) total) =
        countOf k total + totalOcc cfg keywords docs k := by
  intro docs
  induction docs with
  | nil =>
    intro total
    simp [List.foldl_nil, totalOcc]
  | cons d ds ih =>
    intro total
    rw [List.foldl_cons, ih, countOf_mergeDoc, analyze_document_snd,
      sumVals_eq_countOf_of_nodup (nodupKeys_analyze_text hks), totalOcc_cons,
      ← analyze_document_snd]
    omega

theorem mem_keysOf_statsFold {cfg : Config} {keywords : List Str} {k : Str} :
    ∀ (docs : List Document) (total : List (Str × Nat)),
      (k ∈ keysOf (docs.foldl
          (fun t d => mergeDoc t (analyze_document cfg keywords d).2) total) ↔
        k ∈ keysOf total ∨
          ∃ d ∈ docs, k ∈ keysOf (analyze_document cfg keywords d).2) := by
  intro docs
  induction docs with
  | nil => intro total; simp [List.foldl_nil]
  | cons d ds ih =>
    intro total
    rw [List.foldl_cons, ih, mem_keysOf_mergeDoc]
    simp only [List.mem_cons]
    constructor
    · rintro ((h | h) | ⟨e, he, hk⟩)
      · exact Or.inl h
      · exact Or.inr ⟨d, Or.inl rfl, h⟩
      · exact Or.inr ⟨e, Or.inr he, hk⟩
    · rintro (h | ⟨e, (rfl | he), hk⟩)
      · exact Or.inl (Or.inl h)
      · exact Or.inl (Or.inr hk)
      · exact Or.inr ⟨e, he, hk⟩

theorem nodupKeys_statsFold {cfg : Config} {keywords : List Str} :
    ∀ (docs : List Document) (total : List (Str × Nat)), NodupKeys total →
      NodupKeys (docs.foldl
        (fun t d => mergeDoc t (analyze_document cfg keywords d).2) total) := by
  intro docs
  induction docs with
  | nil => intro total h; exact h
  | cons d ds ih =>
    intro total h
    rw [List.foldl_cons]
    exact ih _ (nodupKeys_mergeDoc _ _ h)

theorem nodupKeys_totalStats {cfg : Config} {keywords : List Str}
    {docs : List Document} : NodupKeys (totalStats cfg keywords docs) :=
  nodupKeys_statsFold docs [] (by simp [NodupKeys, keysOf_nil])

theorem totalStats_spec {cfg : Config} {keywords : List Str}
    {docs : List Document} (hks : keywords.Nodup) {k : Str} {v : Nat} :
    (k, v) ∈ totalStats cfg keywords docs ↔
      (0 < totalOcc cfg keywords docs k ∧ v = totalOcc cfg keywords docs k) := by
  rw [mem_iff_lookupKey nodupKeys_totalStats, lookupKey_eq_some_iff]
  unfold totalStats
  rw [countOf_statsFold hks, mem_keysOf_statsFold]
  have hc0 : countOf k ([] : List (Str × Nat)) = 0 := rfl
  have hk0 : k ∉ keysOf ([] : List (Str × Nat)) := by simp [keysOf_nil]
  have hmem : (∃ d ∈ docs, k ∈ keysOf (analyze_document cfg keywords d).2) ↔
      0 < totalOcc cfg keywords docs k := by
    unfold totalOcc
    rw [sum_map_pos_iff]
    constructor
    · rintro ⟨d, hd, hkd⟩
      refine ⟨d, hd, ?_⟩
      exact (countOf_pos_iff_mem_keysOf (fun p hp => analyze_text_vals p hp)).mpr hkd
    · rintro ⟨d, hd, hkd⟩
      refine ⟨d, hd, ?_⟩
      exact (countOf_pos_iff_mem_keysOf (fun p hp => analyze_text_vals p hp)).mp hkd
  rw [hc0]
  constructor
  · rintro ⟨hm, hv⟩
    rcases hm with hm | hm
    · exact absurd hm hk0
    · exact ⟨hmem.mp hm, by omega⟩
  · rintro ⟨hpos, hv⟩
    exact ⟨Or.inr (hmem.mpr hpos), by omega⟩

/-! ### filter_documents lemmas -/

theorem filterDocsAux_eq_take (cfg : Config) (keywords : List Str) (m : Nat) :
    ∀ (docs : List Document) (n : Nat), n < m →
      filterDocsAux cfg keywords m docs n =
        (docs.filter (fun d => (analyze_document cfg keywords d).1)).take (m - n) := by
  intro docs
  induction docs with
  | nil => intro n _; simp [filterDocsAux]
  | cons d ds ih =>
    intro n hn
    by_cases hd : (analyze_document cfg keywords d).1 = true
    · by_cases hm : m ≤ n + 1
      · have hmn : m - n = 1 := by omega
        simp only [filterDocsAux]
        rw [if_pos hd, if_pos hm, List.filter_cons, if_pos hd, hmn,
          List.take_succ_cons, List.take_zero]
      · have hmn : m - n = (m - (n + 1)) + 1 := by omega
        simp only [filterDocsAux]
        rw [if_pos hd, if_neg hm, List.filter_cons, if_pos hd, hmn,
          List.take_succ_cons, ih (n + 1) (by omega)]
    · simp only [filterDocsAux]
      rw [if_neg hd, List.filter_cons, if_neg hd, ih n hn]

theorem filterDocsAux_sublist (cfg : Config) (keywords : List Str) (m : Nat) :
    ∀ (docs : List Document) (n : Nat),
      List.Sublist (filterDocsAux cfg keywords m docs n) docs := by
  intro docs
  induction docs with
  | nil => intro n; simp [filterDocsAux]
  | cons d ds ih =>
    intro n
    by_cases hd : (analyze_document cfg keywords d).1 = true
    · by_cases hm : m ≤ n + 1
      · simp only [filterDocsAux]
        rw [if_pos hd, if_pos hm]
        exact (List.nil_sublist ds).cons₂ d
      · simp only [filterDocsAux]
        rw [if_pos hd, if_neg hm]
        exact (ih (n + 1)).cons₂ d
    · simp only [filterDocsAux]
      rw [if_neg hd]
      exact (ih n).cons d

/-! ### load_keywords / setInsert lemmas -/

theorem mem_setInsert {ks : List Str} {k j : Str} :
    j ∈ setInsert ks k ↔ j ∈ ks ∨ j = k := by
  unfold setInsert
  by_cases h : k ∈ ks
  · rw [if_pos h]
    constructor
    · exact Or.inl
    · rintro (h' | rfl)
      · exact h'
      · exact h
  · rw [if_neg h]
    simp

theorem mem_load_keywords {cfg : Config} {k : Str} :
    ∀ (lines : List Str) (ks0 : List Str),
      (k ∈ load_keywords cfg ks0 lines ↔
        k ∈ ks0 ∨ ∃ line ∈ lines,
          cfg.min_keyword_length ≤ (strip line).length ∧
            k = normalizeStored cfg (strip line)) := by
  intro lines
  induction lines with
  | nil => intro ks0; simp [load_keywords]
  | cons line lines ih =>
    intro ks0
    have hstep : load_keywords cfg ks0 (line :: lines) =
        load_keywords cfg (load_keywords_line cfg ks0 line) lines := rfl
    rw [hstep, ih]
    rw [List.exists_mem_cons_iff]
    unfold load_keywords_line
    by_cases hlen : cfg.min_keyword_length ≤ (strip line).length
    · rw [if_pos hlen]
      rw [mem_setInsert]
      constructor
      · rintro ((h | h) | h)
        · exact Or.inl h
        · exact Or.inr (Or.inl ⟨hlen, h⟩)
        · exact Or.inr (Or.inr h)
      · rintro (h | (⟨-, h⟩ | h))
        · exact Or.inl (Or.inl h)
        · exact Or.inl (Or.inr h)
        · exact Or.inr h
    · rw [if_neg hlen]
      constructor
      · rintro (h | h)
        · exact Or.inl h
        · exact Or.inr (Or.inr h)
      · rintro (h | (⟨hc, -⟩ | h))
        · exact Or.inl h
        · exact absurd hc hlen
        · exact Or.inr h

/-! ### computeTrends lemmas -/

theorem mem_trendUnion {first second : List (Str × Nat)} {k : Str} :
    k ∈ keysOf first ++
        (keysOf second).filter (fun k => decide (k ∉ keysOf first)) ↔
      k ∈ keysOf first ∨ k ∈ keysOf second := by
  rw [List.mem_append, List.mem_filter]
  simp only [decide_eq_true_eq]
  tauto

theorem mem_computeTrends {first second : List (Str × Nat)} {k : Str} {v : ℚ} :
    (k, v) ∈ computeTrends first second ↔
      (k ∈ keysOf first ∨ k ∈ keysOf second) ∧
        v = trendValue first second k := by
  unfold computeTrends
  rw [mem_sortDescBy, List.mem_map]
  constructor
  · rintro ⟨k', hk', heq⟩
    have h1 : k' = k := (Prod.ext_iff.mp heq).1
    subst h1
    exact ⟨mem_trendUnion.mp hk', ((Prod.ext_iff.mp heq).2).symm⟩
  · rintro ⟨hk, rfl⟩
    exact ⟨k, mem_trendUnion.mpr hk, rfl⟩

theorem mem_keysOf_computeTrends {first second : List (Str × Nat)} {k : Str} :
    k ∈ keysOf (computeTrends first second) ↔
      k ∈ keysOf first ∨ k ∈ keysOf second := by
  rw [mem_keysOf]
  constructor
  · rintro ⟨v, hv⟩
    exact (mem_computeTrends.mp hv).1
  · intro h
    exact ⟨trendValue first second k, mem_computeTrends.mpr ⟨h, rfl⟩⟩

/-! ### generate_predictions lemmas -/

theorem mem_generate_predictions {trendData : List (Str × ℚ)}
    {hist : List (Str × Nat)} {days horizon : Nat} {k : Str} {v : ℚ}
    (hn : NodupKeys trendData) :
    (k, v) ∈ generate_predictions trendData hist days horizon ↔
      k ∈ keysOf trendData ∧ k ∈ keysOf hist ∧
        v = predictedValue hist days horizon k
          ((lookupKey k trendData).getD 0) := by
  unfold generate_predictions
  by_cases he : trendData = []
  · subst he
    simp [keysOf_nil]
  · rw [if_neg he, mem_sortDescBy, List.mem_filterMap]
    constructor
    · rintro ⟨⟨k', t⟩, hp, hsome⟩
      by_cases hh : k' ∈ keysOf hist
      · rw [if_pos hh] at hsome
        have hpair := Option.some.inj hsome
        have h1 : k' = k := (Prod.ext_iff.mp hpair).1
        subst h1
        have hlk : lookupKey k' trendData = some t := lookupKey_of_mem_nodup hn hp
        refine ⟨mem_keysOf.mpr ⟨t, hp⟩, hh, ?_⟩
        rw [hlk]
        exact ((Prod.ext_iff.mp hpair).2).symm
      · rw [if_neg hh] at hsome
        simp at hsome
    · rintro ⟨hkt, hh, rfl⟩
      have hsome : (lookupKey k trendData).isSome = true :=
        (isSome_lookupKey k trendData).mpr hkt
      obtain ⟨t, hlt⟩ := Option.isSome_iff_exists.mp hsome
      refine ⟨(k, t), lookupKey_mem hlt, ?_⟩
      rw [if_pos hh, hlt]
      rfl

theorem predictedValue_nonneg (hist : List (Str × Nat)) (days horizon : Nat)
    (k : Str) (t : ℚ) : 0 ≤ predictedValue hist days horizon k t :=
  le_max_left 0 _

/-! ### Date-range lemmas for the trend window split -/

theorem length_dateRangeAux : ∀ (n : Nat) (s : Int),
    (dateRangeAux n s).length = n := by
  intro n
  induction n with
  | zero => intro s; rfl
  | succ n ih =>
    intro s
    simp [dateRangeAux, ih]

theorem length_dateRange (s e : Int) :
    (dateRange s e).length = (e + 1 - s).toNat := by
  unfold dateRange
  rw [length_dateRangeAux]

/-! ## Claim theorems -/

/-- Claim C1, counterexample: for the odd window `windowDays = 3` ending
at day 0 the two halves cover the same number of days (2 each), so the
second half does not contain one more day than the first. -/
theorem C1_counterexample :
    3 % 2 = 1 ∧
      ¬ ((dateRange (trendMidDate 0 3 + 1) 0).length =
          (dateRange (trendStartDate 0 3) (trendMidDate 0 3)).length + 1) := by
  constructor
  · rfl
  · decide

/-- Claim C1 (amended): the trend analysis splits
`startDate = endDate - windowDays` at `midDate = startDate + windowDays/2`
into halves `[startDate, midDate]` and `[midDate+1, endDate]`; the first
half covers `windowDays/2 + 1` days and the second
`windowDays - windowDays/2` days, so for odd `windowDays` the halves are
equal and for even `windowDays` the first half is one day longer. -/
theorem C1_trend_window_split (endDate : Int) (days : Nat) (h : 1 ≤ days) :
    trendMidDate endDate days = trendStartDate endDate days + ((days / 2 : Nat) : Int) ∧
    (dateRange (trendStartDate endDate days) (trendMidDate endDate days)).length
      = days / 2 + 1 ∧
    (dateRange (trendMidDate endDate days + 1) endDate).length
      = days - days / 2 ∧
    (days % 2 = 1 →
      (dateRange (trendStartDate endDate days) (trendMidDate endDate days)).length
        = (dateRange (trendMidDate endDate days + 1) endDate).length) ∧
    (days % 2 = 0 →
      (dateRange (trendStartDate endDate days) (trendMidDate endDate days)).length
        = (dateRange (trendMidDate endDate days + 1) endDate).length + 1) := by
  have h1 : (dateRange (trendStartDate endDate days)
      (trendMidDate endDate days)).length = days / 2 + 1 := by
    rw [length_dateRange]
    unfold trendMidDate trendStartDate
    omega
  have h2 : (dateRange (trendMidDate endDate days + 1) endDate).length
      = days - days / 2 := by
    rw [length_dateRange]
    unfold trendMidDate trendStartDate
    omega
  refine ⟨rfl, h1, h2, ?_, ?_⟩
  · intro hodd
    rw [h1, h2]
    omega
  · intro heven
    rw [h1, h2]
    omega

/-- Witness for C1 at `endDate = 0`, `windowDays = 3`. -/
theorem C1_witness :
    trendMidDate 0 3 = trendStartDate 0 3 + ((3 / 2 : Nat) : Int) ∧
    (dateRange (trendStartDate 0 3) (trendMidDate 0 3)).length = 3 / 2 + 1 ∧
    (dateRange (trendMidDate 0 3 + 1) 0).length = 3 - 3 / 2 ∧
    (3 % 2 = 1 →
      (dateRange (trendStartDate 0 3) (trendMidDate 0 3)).length
        = (dateRange (trendMidDate 0 3 + 1) 0).length) ∧
    (3 % 2 = 0 →
      (dateRange (trendStartDate 0 3) (trendMidDate 0 3)).length
        = (dateRange (trendMidDate 0 3 + 1) 0).length + 1) :=
  C1_trend_window_split 0 3 (by decide)

/-- Claim C2, counterexample: with term-collection iteration order
`[aaa, ccc]` and records whose first record matches only `ccc`, the
aggregate lists `ccc` before `aaa` although both counts are 1 and `aaa`
precedes `ccc` in the collection — ties follow first-encounter insertion
order, not collection order. -/
theorem C2_counterexample :
    ¬ tieBreakByCollection ksAC
      (get_document_keyword_stats defaultConfig ksAC [docC, docA]) := by
  decide

/-- Claim C2 (amended): the aggregate stats are ordered by descending
total count, and entries of any fixed count `c` appear exactly in the
order in which their terms were first matched while scanning records in
input order (the accumulator's insertion order). -/
theorem C2_stats_order (cfg : Config) (keywords : List Str)
    (documents : List Document) (c : Nat) :
    List.Pairwise (fun a b => b.2 ≤ a.2)
      (get_document_keyword_stats cfg keywords documents) ∧
    (get_document_keyword_stats cfg keywords documents).filter
        (fun p => decide (p.2 = c)) =
      (totalStats cfg keywords documents).filter (fun p => decide (p.2 = c)) := by
  unfold get_document_keyword_stats
  by_cases hd : documents = []
  · subst hd
    simp [totalStats]
  · rw [if_neg hd]
    exact ⟨pairwise_sortDescBy (fun p : Str × Nat => p.2) _,
      filter_sortDescBy (fun p : Str × Nat => p.2) c _⟩

/-- Witness for C2 on the two-record corpus. -/
theorem C2_witness :
    List.Pairwise (fun a b => b.2 ≤ a.2)
      (get_document_keyword_stats defaultConfig ksAC [docC, docA]) ∧
    (get_document_keyword_stats defaultConfig ksAC [docC, docA]).filter
        (fun p => decide (p.2 = 1)) =
      (totalStats defaultConfig ksAC [docC, docA]).filter
        (fun p => decide (p.2 = 1)) :=
  C2_stats_order defaultConfig ksAC [docC, docA] 1

/-- Claim C3: over two half-window aggregates (whose entries all carry
positive counts), every trend entry's value is
`((second - first) / first) * 100` when the first-half count is positive
and exactly 100 when the first-half count is 0 and the second-half count
is positive, and a term appears in the trend mapping exactly when it
occurs in at least one half. -/
theorem C3_trend_percentages (first second : List (Str × Nat))
    (h1 : ∀ p ∈ first, 1 ≤ p.2) (h2 : ∀ p ∈ second, 1 ≤ p.2)
    (k : Str) (v : ℚ) :
    ((k, v) ∈ computeTrends first second →
      ((0 < countOf k first ∧
          v = (((countOf k second : ℚ) - (countOf k first : ℚ)) /
            (countOf k first : ℚ)) * 100) ∨
        (countOf k first = 0 ∧ 0 < countOf k second ∧ v = 100))) ∧
    (k ∈ keysOf (computeTrends first second) ↔
      0 < countOf k first ∨ 0 < countOf k second) := by
  have hm1 := countOf_pos_iff_mem_keysOf (k := k) h1
  have hm2 := countOf_pos_iff_mem_keysOf (k := k) h2
  constructor
  · intro hmem
    obtain ⟨hk, hv⟩ := mem_computeTrends.mp hmem
    unfold trendValue at hv
    by_cases hf : 0 < countOf k first
    · rw [if_pos hf] at hv
      exact Or.inl ⟨hf, hv⟩
    · rw [if_neg hf] at hv
      have hs : 0 < countOf k second := by
        rcases hk with hk | hk
        · exact absurd (hm1.mpr hk) hf
        · exact hm2.mpr hk
      rw [if_pos hs] at hv
      exact Or.inr ⟨by omega, hs, hv⟩
  · rw [mem_keysOf_computeTrends, ← hm1, ← hm2]

/-- Witness for C3 on aggregates `{aaa: 10}` and `{aaa: 15}`. -/
theorem C3_witness :
    (((strAAA, (50 : ℚ)) ∈ computeTrends [(strAAA, 10)] [(strAAA, 15)] →
      ((0 < countOf strAAA [(strAAA, 10)] ∧
          (50 : ℚ) = (((countOf strAAA [(strAAA, 15)] : ℚ) -
            (countOf strAAA [(strAAA, 10)] : ℚ)) /
            (countOf strAAA [(strAAA, 10)] : ℚ)) * 100) ∨
        (countOf strAAA [(strAAA, 10)] = 0 ∧
          0 < countOf strAAA [(strAAA, 15)] ∧ (50 : ℚ) = 100)))) ∧
    (strAAA ∈ keysOf (computeTrends [(strAAA, 10)] [(strAAA, 15)]) ↔
      0 < countOf strAAA [(strAAA, 10)] ∨ 0 < countOf strAAA [(strAAA, 15)]) :=
  C3_trend_percentages [(strAAA, 10)] [(strAAA, 15)]
    (by decide) (by decide) strAAA 50

/-- Claim C4, counterexample: the term `-tech`, whose first character is
not a word character, is counted once in whole-word mode inside
`a-tech b` at position 1 even though the alphanumeric `a` is immediately
adjacent on the left. -/
theorem C4_counterexample :
    countWholeWord strDashTech strATechB = 1 ∧
      wwAcceptAt strDashTech strATechB 1 = true ∧
      isAlnumAt strATechB 0 = true := by
  decide

/-- Claim C4 (amended): in whole-word mode, for every term whose first
and last characters are word characters, an occurrence is accepted only
where no alphanumeric character is immediately adjacent on either side;
and `fintechnology` against the term `fintech` yields no match in
whole-word mode and one match in substring mode. -/
theorem C4_whole_word_boundaries :
    (∀ (t s : Str) (i : Nat), isWordAt t 0 = true →
        isWordAt t (t.length - 1) = true → wwAcceptAt t s i = true →
        (1 ≤ i → isAlnumAt s (i - 1) = false) ∧
          isAlnumAt s (i + t.length) = false) ∧
    analyze_text cfgWholeWord [strFintech] strFintechnology = [] ∧
    analyze_text defaultConfig [strFintech] strFintechnology
      = [(strFintech, 1)] := by
  refine ⟨wwAccept_no_alnum_adjacent, ?_, ?_⟩ <;> decide

/-- Witness for C4 at term `fintech` inside `x fintech y` (match at
position 2). -/
theorem C4_witness :
    (1 ≤ 2 → isAlnumAt strXFintechY (2 - 1) = false) ∧
      isAlnumAt strXFintechY (2 + strFintech.length) = false :=
  C4_whole_word_boundaries.1 strFintech strXFintechY 2
    (by decide) (by decide) (by decide)

/-- Claim C5: assuming a positive historical window, the predictor
produces an entry exactly for the terms present in both the trends
mapping and the historical aggregate, each valued
`max 0 ((historical total / windowDays) * (1 + trend/100) * horizonDays)`
— hence never negative — and the output is ordered by descending
projected value. -/
theorem C5_predictions (trendData : List (Str × ℚ)) (hist : List (Str × Nat))
    (days horizon : Nat) (hdays : 1 ≤ days) (hn : NodupKeys trendData)
    (k : Str) (v : ℚ) :
    ((k, v) ∈ generate_predictions trendData hist days horizon ↔
      k ∈ keysOf trendData ∧ k ∈ keysOf hist ∧
        v = max 0 (((countOf k hist : ℚ) / (days : ℚ)) *
          (1 + ((lookupKey k trendData).getD 0) / 100) * (horizon : ℚ))) ∧
    ((k, v) ∈ generate_predictions trendData hist days horizon → 0 ≤ v) ∧
    List.Pairwise (fun a b => b.2 ≤ a.2)
      (generate_predictions trendData hist days horizon) := by
  refine ⟨?_, ?_, ?_⟩
  · rw [mem_generate_predictions hn]
    exact Iff.rfl
  · intro h
    obtain ⟨-, -, hv⟩ := (mem_generate_predictions hn).mp h
    rw [hv]
    exact predictedValue_nonneg hist days horizon k _
  · unfold generate_predictions
    by_cases he : trendData = []
    · rw [if_pos he]
      exact List.Pairwise.nil
    · rw [if_neg he]
      exact pairwise_sortDescBy (fun p : Str × ℚ => p.2) _

/-- Witness for C5: a -200% trend on `aaa` with historical total 30 over
a 30-day window and 7-day horizon projects to exactly 0. -/
theorem C5_witness :
    (((strAAA, (0 : ℚ)) ∈
        generate_predictions [(strAAA, -200)] [(strAAA, 30)] 30 7 ↔
      strAAA ∈ keysOf [(strAAA, (-200 : ℚ))] ∧
        strAAA ∈ keysOf [(strAAA, 30)] ∧
        (0 : ℚ) = max 0 (((countOf strAAA [(strAAA, 30)] : ℚ) / ((30 : Nat) : ℚ)) *
          (1 + ((lookupKey strAAA [(strAAA, (-200 : ℚ))]).getD 0) / 100) *
          ((7 : Nat) : ℚ)))) ∧
    (((strAAA, (0 : ℚ)) ∈
        generate_predictions [(strAAA, -200)] [(strAAA, 30)] 30 7) →
      (0 : ℚ) ≤ 0) ∧
    List.Pairwise (fun a b => b.2 ≤ a.2)
      (generate_predictions [(strAAA, (-200 : ℚ))] [(strAAA, 30)] 30 7) :=
  C5_predictions [(strAAA, -200)] [(strAAA, 30)] 30 7
    (by decide) (by decide) strAAA 0

/-- Claim C6, counterexample: `add_keyword` does not strip its argument,
so the raw string of length 4 whose trimmed length 2 is below the default
minimum 3 is nevertheless added. -/
theorem C6_counterexample :
    add_keyword defaultConfig [] strPadAA = [strPadAA] ∧
      (strip strPadAA).length < defaultConfig.min_keyword_length := by
  decide

/-- Claim C6 (amended): a line of the term file is stripped, rejected
when the trimmed length is below the configured minimum and otherwise
stored lowercased unless case-sensitive mode is set; `add_keyword`
applies the same length check and normalization to its raw, unstripped
argument. -/
theorem C6_term_insertion (cfg : Config) (ks0 : List Str) (lines : List Str)
    (keyword : Str) (k : Str) :
    (k ∈ load_keywords cfg ks0 lines ↔
      k ∈ ks0 ∨ ∃ line ∈ lines,
        cfg.min_keyword_length ≤ (strip line).length ∧
          k = normalizeStored cfg (strip line)) ∧
    (keyword.length < cfg.min_keyword_length →
      add_keyword cfg ks0 keyword = ks0) ∧
    (cfg.min_keyword_length ≤ keyword.length →
      add_keyword cfg ks0 keyword = setInsert ks0 (normalizeStored cfg keyword)) := by
  refine ⟨mem_load_keywords lines ks0, ?_, ?_⟩
  · intro h
    unfold add_keyword
    rw [if_neg (by omega)]
  · intro h
    unfold add_keyword
    rw [if_pos h]

/-- Witness for C6 on a one-line term file. -/
theorem C6_witness :
    (strAAA ∈ load_keywords defaultConfig [] [strAAA] ↔
      strAAA ∈ ([] : List Str) ∨ ∃ line ∈ [strAAA],
        defaultConfig.min_keyword_length ≤ (strip line).length ∧
          strAAA = normalizeStored defaultConfig (strip line)) ∧
    (strAAA.length < defaultConfig.min_keyword_length →
      add_keyword defaultConfig [] strAAA = []) ∧
    (defaultConfig.min_keyword_length ≤ strAAA.length →
      add_keyword defaultConfig [] strAAA =
        setInsert [] (normalizeStored defaultConfig strAAA)) :=
  C6_term_insertion defaultConfig [] [strAAA] strAAA strAAA

/-- Claim C7: a term carries value `v` in the corpus-wide stats exactly
when the sum of its per-record match counts is positive and equals `v`. -/
theorem C7_corpus_stats (cfg : Config) (keywords : List Str)
    (documents : List Document) (hks : keywords.Nodup) (k : Str) (v : Nat) :
    (k, v) ∈ get_document_keyword_stats cfg keywords documents ↔
      (0 < totalOcc cfg keywords documents k ∧
        v = totalOcc cfg keywords documents k) := by
  unfold get_document_keyword_stats
  by_cases hd : documents = []
  · subst hd
    simp [totalOcc]
  · rw [if_neg hd, mem_sortDescBy]
    exact totalStats_spec hks

/-- Witness for C7 on a one-record corpus. -/
theorem C7_witness :
    (strAAA, 1) ∈ get_document_keyword_stats defaultConfig [strAAA] [docA] ↔
      (0 < totalOcc defaultConfig [strAAA] [docA] strAAA ∧
        1 = totalOcc defaultConfig [strAAA] [docA] strAAA) :=
  C7_corpus_stats defaultConfig [strAAA] [docA] (by decide) strAAA 1

/-- Claim C8, counterexample: with `max_results = 0` the filter still
returns the first matching record, exceeding the configured cap. -/
theorem C8_counterexample :
    ¬ ((filter_documents cfgMaxZero [strAAA] [docA]).length ≤
        cfgMaxZero.max_results) := by
  decide

/-- Claim C8 (amended): when `max_results` is at least 1, filtering
returns exactly the first `max_results` matching records in input order
(a sublist of the input, hence order-preserving), so the result length
never exceeds `max_results`. -/
theorem C8_filter_cap (cfg : Config) (keywords : List Str)
    (documents : List Document) (h : 1 ≤ cfg.max_results) :
    filter_documents cfg keywords documents =
      (documents.filter (fun d => (analyze_document cfg keywords d).1)).take
        cfg.max_results ∧
    List.Sublist (filter_documents cfg keywords documents) documents ∧
    (filter_documents cfg keywords documents).length ≤ cfg.max_results := by
  have h1 : filter_documents cfg keywords documents =
      (documents.filter (fun d => (analyze_document cfg keywords d).1)).take
        cfg.max_results := by
    unfold filter_documents
    rw [filterDocsAux_eq_take cfg keywords cfg.max_results documents 0 (by omega),
      Nat.sub_zero]
  refine ⟨h1, ?_, ?_⟩
  · unfold filter_documents
    exact filterDocsAux_sublist cfg keywords cfg.max_results documents 0
  · rw [h1]
    exact List.length_take_le _ _

/-- Witness for C8 on a two-record corpus under the default cap. -/
theorem C8_witness :
    filter_documents defaultConfig [strAAA] [docA, docC] =
      ([docA, docC].filter
        (fun d => (analyze_document defaultConfig [strAAA] d).1)).take
        defaultConfig.max_results ∧
    List.Sublist (filter_documents defaultConfig [strAAA] [docA, docC])
      [docA, docC] ∧
    (filter_documents defaultConfig [strAAA] [docA, docC]).length ≤
      defaultConfig.max_results :=
  C8_filter_cap defaultConfig [strAAA] [docA, docC] (by decide)

/-- Claim C9: every key of a match result is one of the analyzer's terms
and every value is at least 1. -/
theorem C9_match_result_invariant (cfg : Config) (keywords : List Str)
    (text : Str) (k : Str) (v : Nat)
    (h : (k, v) ∈ analyze_text cfg keywords text) :
    k ∈ keywords ∧ 1 ≤ v := by
  obtain ⟨-, hk, hpos, rfl⟩ := mem_analyze_text.mp h
  exact ⟨hk, hpos⟩

/-- Witness for C9 on the term set `{aaa}` and the text `aaa`. -/
theorem C9_witness : strAAA ∈ [strAAA] ∧ 1 ≤ 1 :=
  C9_match_result_invariant defaultConfig [strAAA] strAAA strAAA 1 (by decide)

/-- Claim C10: the four analysis operations leave the analyzer state
(term set and configuration) unchanged, and every record the filter
returns is one of the input records themselves (the result is a sublist
of the input). -/
theorem C10_analysis_pure (st : AnalyzerState) (text : Str) (d : Document)
    (documents : List Document) (r : Document) :
    (analyze_text_m st text).2 = st ∧
    (analyze_document_m st d).2 = st ∧
    (filter_documents_m st documents).2 = st ∧
    (get_document_keyword_stats_m st documents).2 = st ∧
    List.Sublist (filter_documents_m st documents).1 documents ∧
    (r ∈ (filter_documents_m st documents).1 → r ∈ documents) := by
  have hsub : List.Sublist (filter_documents_m st documents).1 documents :=
    filterDocsAux_sublist st.config st.keywords st.config.max_results documents 0
  exact ⟨rfl, rfl, rfl, rfl, hsub, fun h => hsub.subset h⟩

/-- Witness for C10 on a concrete state and one-record corpus. -/
theorem C10_witness :
    (analyze_text_m ⟨defaultConfig, [strAAA]⟩ strAAA).2 = ⟨defaultConfig, [strAAA]⟩ ∧
    (analyze_document_m ⟨defaultConfig, [strAAA]⟩ docA).2 = ⟨defaultConfig, [strAAA]⟩ ∧
    (filter_documents_m ⟨defaultConfig, [strAAA]⟩ [docA]).2 = ⟨defaultConfig, [strAAA]⟩ ∧
    (get_document_keyword_stats_m ⟨defaultConfig, [strAAA]⟩ [docA]).2 =
      ⟨defaultConfig, [strAAA]⟩ ∧
    List.Sublist (filter_documents_m ⟨defaultConfig, [strAAA]⟩ [docA]).1 [docA] ∧
    (docA ∈ (filter_documents_m ⟨defaultConfig, [strAAA]⟩ [docA]).1 →
      docA ∈ [docA]) :=
  C10_analysis_pure ⟨defaultConfig, [strAAA]⟩ strAAA docA [docA] docA

end Monitor
